import Mathlib

/-!
# Quantum Blackjack — verification of the design specification

Shallow embedding of `QuantumBlackJack-withGUI.ipynb` (class
`QuantumCardGameGUI`).  Two models are developed:

* an amplitude-level model of one entangled "slot pair" of the quantum
  circuit (three qubits of Player 1's register and the three matching
  qubits of Player 2's register).  All gates used by the program (`h`,
  `ry`, `cx`) are real matrices, so real amplitudes are enough; the model
  is polymorphic in a commutative ring of amplitudes, so the general
  theorems hold in particular over `ℝ` with `c = cos (θ/2)`,
  `s = sin (θ/2)`, while concrete counterexamples are evaluated over `ℤ`.
  Amplitudes are kept unnormalised (the `h` gate is embedded as the
  integer matrix [[1,1],[1,-1]], and `(c, s)` may carry a common scale),
  which rescales every squared weight of a state by the same positive
  constant and so changes neither "which outcomes have probability zero"
  nor "which marginal distributions are uniform";

* a classical model of the session controller: the game state, the turn
  state machine (`_on_action_button_clicked`, `_next_turn`, `_end_game`),
  card-value derivation (`_process_quantum_results`,
  `_get_card_value_from_binary`), the dealer draw loop
  (`_dealer_final_turn`) and scoring (`_generate_final_summary`).
  Randomness sources (`np.random.randint`, the quantum coin, the
  single-shot backend sample) are explicit input streams.
-/

/-! ## Game constants (notebook cell, lines 69-73) -/

def TARGET_SCORE : ℕ := 17
def DEALER_STANDS_THRESHOLD : ℕ := 14
def MIN_CARD_VALUE : ℕ := 1
def MAX_CARD_VALUE : ℕ := 8
def NUM_QUANTUM_CARDS_PER_PLAYER : ℕ := 2

/-! ## Amplitude model of one slot pair

A "slot" is a group of three qubits.  Slot 1 of each player is qubits
`[3:6]` of that player's register, slot 2 is qubits `[0:3]`; the gate
pattern on the two slots is identical (`_prepare_quantum_circuit`), so one
model covers both.  A basis state of the pair is `(x, y)` where
`x = (x0, x1, x2)` are Player 1's three qubits of the slot in register
order (for slot 1: `player1_q[3], player1_q[4], player1_q[5]`) and `y`
likewise for Player 2.  The dealer's qubits and the other slot receive no
gate that touches this pair, so the joint state is a tensor product and
the pair can be analysed alone. -/

abbrev B3 := Bool × Bool × Bool

/-- Component `i` of a three-bit group. -/
def getB (b : B3) : Fin 3 → Bool
  | 0 => b.1
  | 1 => b.2.1
  | 2 => b.2.2

/-- Replace component `i` of a three-bit group. -/
def setB (b : B3) : Fin 3 → Bool → B3
  | 0, v => (v, b.2.1, b.2.2)
  | 1, v => (b.1, v, b.2.2)
  | 2, v => (b.1, b.2.1, v)

/-- Unnormalised real amplitudes of the six-qubit slot pair:
`ψ x y` is the amplitude of `|x⟩ (Player 1) ⊗ |y⟩ (Player 2)`. -/
abbrev QState (R : Type) := B3 → B3 → R

/-- Initial state `|000⟩ ⊗ |000⟩`. -/
def init0 {R : Type} [CommRing R] : QState R := fun x y =>
  if x = (false, false, false) ∧ y = (false, false, false) then 1 else 0

/-- Hadamard gate on Player 1's qubit `i` of the slot, unnormalised:
`H = [[1,1],[1,-1]]`. -/
def hP1 {R : Type} [CommRing R] (i : Fin 3) (ψ : QState R) : QState R := fun x y =>
  ψ (setB x i false) y + (if getB x i then -1 else 1) * ψ (setB x i true) y

/-- Hadamard gate on Player 2's qubit `i` of the slot. -/
def hP2 {R : Type} [CommRing R] (i : Fin 3) (ψ : QState R) : QState R := fun x y =>
  ψ x (setB y i false) + (if getB y i then -1 else 1) * ψ x (setB y i true)

/-- `ry(θ)` gate on Player 1's qubit `i`, parametrised by
`c = cos (θ/2)` and `s = sin (θ/2)`:  `RY = [[c, -s], [s, c]]`.
(The notebook draws `θ` uniformly from `[0, 2π)`; here `c` and `s` are
free ring parameters, which covers every real angle.) -/
def ryP1 {R : Type} [CommRing R] (c s : R) (i : Fin 3) (ψ : QState R) : QState R := fun x y =>
  if getB x i then s * ψ (setB x i false) y + c * ψ (setB x i true) y
  else c * ψ (setB x i false) y - s * ψ (setB x i true) y

/-- `cx` gate with control Player 1's qubit `i` and target Player 2's
qubit `j` (a permutation of basis states, its own inverse). -/
def cxP1P2 {R : Type} (i j : Fin 3) (ψ : QState R) : QState R := fun x y =>
  ψ x (setB y j (xor (getB y j) (getB x i)))

/-- `_prepare_player_card_with_rotations` on one slot of Player 1:
`self.qc.h(qubits)` then one `ry` per qubit. -/
def prepSlot {R : Type} [CommRing R] (c0 s0 c1 s1 c2 s2 : R) : QState R :=
  ryP1 c2 s2 2 (ryP1 c1 s1 1 (ryP1 c0 s0 0 (hP1 2 (hP1 1 (hP1 0 init0)))))

/-- The entangling `cx` pattern of `_prepare_quantum_circuit`:
`cx(player1_q[3], player2_q[5])`, `cx(player1_q[4], player2_q[4])`,
`cx(player1_q[5], player2_q[3])` (slot 2 is the same pattern on its own
qubits): control local qubit `i`, target local qubit `2 - i`. -/
def entangleSlot {R : Type} (ψ : QState R) : QState R :=
  cxP1P2 2 0 (cxP1P2 1 1 (cxP1P2 0 2 ψ))

/-- The slot pair as prepared at session start. -/
def slotCircuit {R : Type} [CommRing R] (c0 s0 c1 s1 c2 s2 : R) : QState R :=
  entangleSlot (prepSlot c0 s0 c1 s1 c2 s2)

/-- Re-Shuffle of the slot by Player 1 (`self.qc.h(qubits_to_affect)`
with `player_q = self.player1_q`). -/
def reshuffleP1 {R : Type} [CommRing R] (ψ : QState R) : QState R := hP1 2 (hP1 1 (hP1 0 ψ))

/-- Re-Shuffle of the slot by Player 2. -/
def reshuffleP2 {R : Type} [CommRing R] (ψ : QState R) : QState R := hP2 2 (hP2 1 (hP2 0 ψ))

/-- Unnormalised weight of Player 1 measuring `x` on this slot (the
squared amplitudes summed over Player 2's qubits; measurement of the
other registers factors out). -/
def wP1 {R : Type} [CommRing R] (ψ : QState R) (x : B3) : R := ∑ y : B3, (ψ x y) ^ 2

/-- Unnormalised weight of Player 2 measuring `y` on this slot. -/
def wP2 {R : Type} [CommRing R] (ψ : QState R) (y : B3) : R := ∑ x : B3, (ψ x y) ^ 2

/-- The bit-reversal permutation linking the two players' slots. -/
def revB3 (b : B3) : B3 := (b.2.2, b.2.1, b.1)

/-- `_get_card_value_from_binary`: a bit string read as a binary integer
(most significant bit first), plus 1. -/
def getCardValueFromBinary (bits : List Bool) : ℕ :=
  bits.foldl (fun a b => 2 * a + (if b then 1 else 0)) 0 + 1

/-- The card value of a measured slot group.  In
`_process_quantum_results` the slot group of the result string is
reversed (`[::-1]`) before `_get_card_value_from_binary`; since the
result string lists classical bits highest index first, the reversed
group is exactly `(b0, b1, b2)` in register order, `b0` most
significant. -/
def slotCardValue (b : B3) : ℕ := getCardValueFromBinary [b.1, b.2.1, b.2.2]

/-! ## Classical model of the session controller

The mutable attributes of `QuantumCardGameGUI` that carry game state
(everything except pure presentation widgets).  Python dicts keyed by the
three fixed participant names are records with three fields; the
`player_scores`/`player_hands`/`initial_cards` dicts start empty in
`__init__` and are modelled with empty-hand/zero defaults.  The quantum
circuit object is modelled as the list of gate operations appended to it
(amplitude-level behaviour is the model above).  The randomness sources
(`np.random.randint`, the quantum coin toss, the single-shot backend
sample) are explicit input streams consumed at increasing indices. -/

inductive Player
  | dealer
  | p1
  | p2
deriving DecidableEq

instance : Inhabited Player := ⟨Player.dealer⟩

/-- A dict keyed by the three participants. -/
structure PMap (α : Type) where
  dealer : α
  p1 : α
  p2 : α
deriving DecidableEq

/-- Dict lookup. -/
def PMap.get {α : Type} (m : PMap α) : Player → α
  | .dealer => m.dealer
  | .p1 => m.p1
  | .p2 => m.p2

/-- One operation appended to the `QuantumCircuit` (qubit indices are
indices into the named 6-qubit register of `owner`). -/
inductive Op
  | barrier
  | h (owner : Player) (qubits : List ℕ)
  | ry (owner : Player) (qubit : ℕ)
  | cx (cowner : Player) (cqubit : ℕ) (towner : Player) (tqubit : ℕ)
  | measureOp (owner : Player) (qubits : List ℕ)
deriving DecidableEq

/-- The three wired action buttons (`Measure`, `Pass`, `Re-Shuffle`);
`choice` is the Q-Card radio selection, `0` for card '1' (qubits `[3:6]`)
and `1` for card '2' (qubits `[0:3]`). -/
inductive PlayerAction
  | measure
  | pass
  | reshuffle (choice : Fin 2)
deriving DecidableEq

structure GameState where
  qc : List Op
  playerScores : PMap ℕ
  initialCards : PMap ℕ
  playerHands : PMap (List ℕ)
  playerTurnOrder : List ℕ
  currentPlayerIndex : ℕ
  gameOver : Bool
  currentRound : ℕ
  measureLevel : ℕ
deriving DecidableEq

/-- A game state together with the positions reached in the three
randomness streams (the program uses global generators; the counters
record how much of each stream has been consumed). -/
structure World where
  state : GameState
  coinIdx : ℕ
  drawIdx : ℕ
  sampleIdx : ℕ
deriving DecidableEq

/-- `_generate_random_card`: `np.random.randint(MIN_CARD_VALUE,
MAX_CARD_VALUE + 1)`, a uniform integer in `1..8`; the generator is an
arbitrary stream reduced into the generator's exact range, so every value
in `1..8` and no other is drawable. -/
def generateRandomCard (draws : ℕ → ℕ) (i : ℕ) : ℕ :=
  MIN_CARD_VALUE + draws i % (MAX_CARD_VALUE - MIN_CARD_VALUE + 1)

/-- `_determine_turn_order`: quantum coin, `'0'` puts Player 1 first. -/
def determineTurnOrder (coins : ℕ → Bool) (i : ℕ) : List ℕ :=
  if coins i = false then [1, 2] else [2, 1]

/-- The measured classical bits of one 6-bit register (`j` is the
classical bit index, equal to the measured qubit's register index). -/
abbrev RegBits := Fin 6 → Bool

/-- The register's part of the Qiskit memory string, highest classical
bit printed first (a length-6 list, leftmost entry first). -/
def regString (r : RegBits) : List Bool := [r 5, r 4, r 3, r 2, r 1, r 0]

/-- `res[0:3][::-1]`: slot-1 group of a register string, reversed. -/
def slot1Slice (l : List Bool) : List Bool := (l.take 3).reverse

/-- `res[3:6][::-1]`: slot-2 group of a register string, reversed. -/
def slot2Slice (l : List Bool) : List Bool := ((l.drop 3).take 3).reverse

/-- `_add_measurements_to_circuit`: measure only qubits `[3:6]` of each
register at measure level 2, all qubits otherwise. -/
def addMeasurements (s : GameState) : GameState :=
  if s.measureLevel = 2 then
    { s with qc := s.qc ++
        [Op.measureOp .dealer [3, 4, 5], Op.measureOp .p1 [3, 4, 5], Op.measureOp .p2 [3, 4, 5]] }
  else
    { s with qc := s.qc ++
        [Op.measureOp .dealer [0, 1, 2, 3, 4, 5], Op.measureOp .p1 [0, 1, 2, 3, 4, 5],
         Op.measureOp .p2 [0, 1, 2, 3, 4, 5]] }

/-- `_process_quantum_results`: rebuild hands from the initial cards,
append each participant's slot-1 value, at measure level 3 also both
players' slot-2 values and — only if the dealer's running total is still
under the stands threshold — the dealer's slot-2 value; recompute all
scores as hand sums. -/
def processQuantumResults (res : PMap RegBits) (s : GameState) : GameState :=
  let q1 : Player → ℕ := fun p => getCardValueFromBinary (slot1Slice (regString (res.get p)))
  let q2 : Player → ℕ := fun p => getCardValueFromBinary (slot2Slice (regString (res.get p)))
  let base : Player → List ℕ := fun p => [s.initialCards.get p, q1 p]
  let hands : PMap (List ℕ) :=
    if s.measureLevel = 3 then
      { dealer :=
          if (base .dealer).sum < DEALER_STANDS_THRESHOLD
          then base .dealer ++ [q2 .dealer]
          else base .dealer,
        p1 := base .p1 ++ [q2 .p1],
        p2 := base .p2 ++ [q2 .p2] }
    else
      { dealer := base .dealer, p1 := base .p1, p2 := base .p2 }
  { s with playerHands := hands,
           playerScores :=
             { dealer := hands.dealer.sum, p1 := hands.p1.sum, p2 := hands.p2.sum } }

/-- `_dealer_final_turn`'s `while` loop run with an explicit iteration
budget: `none` when the budget is exhausted with the total still under
the threshold.  Used both to state whether the loop's number of
iterations is structurally capped and as the computable engine of
`dealerFinalTurn` below. -/
def dealerFinalTurnFuel (draws : ℕ → ℕ) : ℕ → ℕ → ℕ → List ℕ → Option (ℕ × ℕ × List ℕ)
  | 0, i, total, hand =>
    if total < DEALER_STANDS_THRESHOLD then none else some (i, total, hand)
  | fuel + 1, i, total, hand =>
    if total < DEALER_STANDS_THRESHOLD then
      let v := generateRandomCard draws i
      dealerFinalTurnFuel draws fuel (i + 1) (total + v) (hand ++ [v])
    else some (i, total, hand)

/-- `_dealer_final_turn`: while the dealer total is under the stands
threshold, draw a classical card, append it and add it to the total.
Returns the next draw-stream position, the final total and the final
hand.  Every drawn card is at least `MIN_CARD_VALUE = 1`, so the loop
performs at most `DEALER_STANDS_THRESHOLD` iterations; the definition
runs it with that budget, and `dealerFinalTurn_eq` below proves the
budget never binds: this function satisfies exactly the `while` loop's
defining equation. -/
def dealerFinalTurn (draws : ℕ → ℕ) (i total : ℕ) (hand : List ℕ) : ℕ × ℕ × List ℕ :=
  (dealerFinalTurnFuel draws DEALER_STANDS_THRESHOLD i total hand).getD (i, total, hand)

/-- `_end_game`: set the game-over flag, add the measurement operations,
run the backend once (the sample stream), derive hands and scores, then
run the dealer's final turn. -/
def endGame (draws : ℕ → ℕ) (sample : ℕ → PMap RegBits) (w : World) : World :=
  let s0 := { w.state with gameOver := true }
  let s1 := addMeasurements s0
  let s2 := processQuantumResults (sample w.sampleIdx) s1
  let r := dealerFinalTurn draws w.drawIdx s2.playerScores.dealer s2.playerHands.dealer
  let s3 := { s2 with playerHands := { s2.playerHands with dealer := r.2.2 },
                      playerScores := { s2.playerScores with dealer := r.2.1 } }
  { state := s3, coinIdx := w.coinIdx, drawIdx := r.1, sampleIdx := w.sampleIdx + 1 }

/-- `_next_turn`: advance the index; on round completion advance the
round, and either end the game with measure level 3 (after round 2) or
start round 2 with a fresh coin toss. -/
def nextTurn (coins : ℕ → Bool) (draws : ℕ → ℕ) (sample : ℕ → PMap RegBits)
    (w : World) : World :=
  let s := w.state
  let idx := s.currentPlayerIndex + 1
  if idx < s.playerTurnOrder.length then
    { w with state := { s with currentPlayerIndex := idx } }
  else
    let round := s.currentRound + 1
    if round > 2 then
      endGame draws sample
        { w with state :=
            { s with currentPlayerIndex := idx, currentRound := round, measureLevel := 3 } }
    else
      { state := { s with currentPlayerIndex := 0, currentRound := round,
                          playerTurnOrder := determineTurnOrder coins w.coinIdx },
        coinIdx := w.coinIdx + 1, drawIdx := w.drawIdx, sampleIdx := w.sampleIdx }

/-- `_on_action_button_clicked`.  The handler first reads
`self.player_turn_order[self.current_player_index]`; an out-of-range
index is a fatal `IndexError`, modelled as `none`.  There is no
`game_over` guard in this handler. -/
def onActionButtonClicked (coins : ℕ → Bool) (draws : ℕ → ℕ)
    (sample : ℕ → PMap RegBits) (w : World) (a : PlayerAction) : Option World :=
  match w.state.playerTurnOrder[w.state.currentPlayerIndex]? with
  | none => none
  | some playerNum =>
    match a with
    | .measure =>
      some (endGame draws sample
        { w with state := { w.state with measureLevel := w.state.currentRound + 1 } })
    | .pass => some (nextTurn coins draws sample w)
    | .reshuffle choice =>
      let owner : Player := if playerNum = 1 then .p1 else .p2
      let qubits : List ℕ := if choice = 0 then [3, 4, 5] else [0, 1, 2]
      some (nextTurn coins draws sample
        { w with state := { w.state with qc := w.state.qc ++ [Op.h owner qubits, Op.barrier] } })

/-- The gate operations `_prepare_quantum_circuit` appends: dealer
superposition, both player-1 slot preparations (`h` + 3 `ry`, slot 1 =
qubits `[3:6]` first), then the two entangling `cx` groups. -/
def prepareQuantumCircuitOps : List Op :=
  [Op.barrier,
   Op.h .dealer [0, 1, 2, 3, 4, 5], Op.barrier,
   Op.h .p1 [3, 4, 5], Op.ry .p1 3, Op.ry .p1 4, Op.ry .p1 5, Op.barrier,
   Op.h .p1 [0, 1, 2], Op.ry .p1 0, Op.ry .p1 1, Op.ry .p1 2, Op.barrier,
   Op.cx .p1 3 .p2 5, Op.cx .p1 4 .p2 4, Op.cx .p1 5 .p2 3, Op.barrier,
   Op.cx .p1 0 .p2 2, Op.cx .p1 1 .p2 1, Op.cx .p1 2 .p2 0, Op.barrier]

/-- `start_game`: reset the round state, draw the three initial cards
(dealer first), rebuild the circuit, toss the turn order.  Neither
`measure_level` nor `player_scores` is reset here. -/
def startGame (coins : ℕ → Bool) (draws : ℕ → ℕ) (w : World) : World :=
  let s := w.state
  let initD := generateRandomCard draws w.drawIdx
  let init1 := generateRandomCard draws (w.drawIdx + 1)
  let init2 := generateRandomCard draws (w.drawIdx + 2)
  { state :=
      { s with gameOver := false, currentRound := 1, currentPlayerIndex := 0,
               playerHands := { dealer := [], p1 := [], p2 := [] },
               initialCards := { dealer := initD, p1 := init1, p2 := init2 },
               qc := prepareQuantumCircuitOps,
               playerTurnOrder := determineTurnOrder coins w.coinIdx },
    coinIdx := w.coinIdx + 1, drawIdx := w.drawIdx + 3, sampleIdx := w.sampleIdx }

/-- A play: process actions in order; once the game is over the play is
finished and remaining entries are ignored.  `none` when the handler
fails. -/
def run (coins : ℕ → Bool) (draws : ℕ → ℕ) (sample : ℕ → PMap RegBits) :
    World → List PlayerAction → Option World
  | w, [] => some w
  | w, a :: rest =>
    if w.state.gameOver then some w
    else
      match onActionButtonClicked coins draws sample w a with
      | none => none
      | some w2 => run coins draws sample w2 rest

/-- The round in which the play's (first) Measure action is processed,
`none` when the play ends without one. -/
def measureRound (coins : ℕ → Bool) (draws : ℕ → ℕ) (sample : ℕ → PMap RegBits) :
    World → List PlayerAction → Option ℕ
  | _, [] => none
  | w, a :: rest =>
    if w.state.gameOver then none
    else
      match a with
      | .measure => some w.state.currentRound
      | _ =>
        match onActionButtonClicked coins draws sample w a with
        | none => none
        | some w2 => measureRound coins draws sample w2 rest

/-! ## Scoring and resolution (`_generate_final_summary`) -/

/-- The final verdict. -/
inductive Outcome
  | houseWins
  | winner (p : Player) (score : ℕ)
  | tie (ps : List Player) (score : ℕ)
deriving DecidableEq

/-- Iteration order of the `player_scores` dict: the keys are inserted
by `_process_quantum_results` in the order Player 1, Player 2, Dealer. -/
def playersInOrder : List Player := [.p1, .p2, .dealer]

/-- The non-busted participants (`valid_scores`), in dict order. -/
def validPlayers (scores : PMap ℕ) : List Player :=
  playersInOrder.filter (fun p => scores.get p ≤ TARGET_SCORE)

/-- `max(valid_scores.values())` (evaluated only when somebody is not
busted; the fold's base 0 is then dominated). -/
def maxValidScore (scores : PMap ℕ) : ℕ :=
  ((validPlayers scores).map scores.get).foldl max 0

/-- `winners`: the non-busted participants holding the maximum score. -/
def winnersOf (scores : PMap ℕ) : List Player :=
  (validPlayers scores).filter (fun p => scores.get p = maxValidScore scores)

/-- `_generate_final_summary`: everyone busted means the house wins;
otherwise the non-busted players with the maximum valid score win,
reported as a tie when there are several. -/
def generateFinalSummary (scores : PMap ℕ) : Outcome :=
  if (validPlayers scores).isEmpty then .houseWins
  else if 1 < (winnersOf scores).length then .tie (winnersOf scores) (maxValidScore scores)
  else .winner (winnersOf scores).headI (maxValidScore scores)

/-! ## Concrete inputs for witnesses and counterexamples -/

/-- The state `__init__` leaves behind (empty dicts as defaults). -/
def initState : GameState :=
  { qc := [], playerScores := ⟨0, 0, 0⟩, initialCards := ⟨0, 0, 0⟩,
    playerHands := ⟨[], [], []⟩, playerTurnOrder := [], currentPlayerIndex := 0,
    gameOver := false, currentRound := 1, measureLevel := 3 }

def initWorld : World := ⟨initState, 0, 0, 0⟩

/-- Coin stream: always `'0'` (Player 1 first). -/
def coins0 : ℕ → Bool := fun _ => false

/-- Draw stream: every classical card drawn is 8. -/
def draws7 : ℕ → ℕ := fun _ => 7

/-- Sample stream: every measured bit is 0 (every slot value is 1). -/
def sample0 : ℕ → PMap RegBits := fun _ => ⟨fun _ => false, fun _ => false, fun _ => false⟩

/-- A session as started by `Start Game` on these streams. -/
def demoStart : World := startGame coins0 draws7 initWorld

/-- The session after Player 1 measures on their first turn (a reachable
`Ended` state). -/
def demoEndedWorld : World :=
  (run coins0 draws7 sample0 demoStart [PlayerAction.measure]).getD initWorld

/-- The invariant of every state in which a player is being offered a
turn: the game is not over, the round's turn order has both players, the
current index points into it, the round number is 1 or 2, and the
dealer's initial card is in the card range.  `start_game` establishes it
and every non-ending action preserves it. -/
def ActiveInv (w : World) : Prop :=
  w.state.gameOver = false ∧ w.state.playerTurnOrder.length = 2 ∧
  w.state.currentPlayerIndex < 2 ∧
  (w.state.currentRound = 1 ∨ w.state.currentRound = 2) ∧
  MIN_CARD_VALUE ≤ w.state.initialCards.dealer ∧
  w.state.initialCards.dealer ≤ MAX_CARD_VALUE

/-- What holds of a play's final state `w2` when the play terminates,
relative to `mr`, the round in which its Measure action (if any) was
processed: the dealer's score is in `[14, 21]`, and the frozen measure
level is the Measure round plus one (so 2 exactly for a round-1 Measure)
or 3 when the play ended with nobody measuring. -/
def EndedSpec (mr : Option ℕ) (w2 : World) : Prop :=
  (DEALER_STANDS_THRESHOLD ≤ w2.state.playerScores.dealer ∧
    w2.state.playerScores.dealer ≤ 21) ∧
  ((∃ r, mr = some r ∧ (r = 1 ∨ r = 2) ∧ w2.state.measureLevel = r + 1) ∨
    (mr = none ∧ w2.state.measureLevel = 3))

/-! ## Theorems

First the dealer draw loop (`_dealer_final_turn`), then card-value
derivation, scoring, the turn state machine, and the amplitude model. -/

theorem dealerFinalTurnFuel_succ (draws : ℕ → ℕ) (f i total : ℕ) (hand : List ℕ) :
    dealerFinalTurnFuel draws (f + 1) i total hand =
      if total < DEALER_STANDS_THRESHOLD then
        dealerFinalTurnFuel draws f (i + 1) (total + generateRandomCard draws i)
          (hand ++ [generateRandomCard draws i])
      else some (i, total, hand) := rfl

theorem generateRandomCard_ge (draws : ℕ → ℕ) (i : ℕ) :
    MIN_CARD_VALUE ≤ generateRandomCard draws i := by
  simp [generateRandomCard, MIN_CARD_VALUE]

theorem generateRandomCard_le (draws : ℕ → ℕ) (i : ℕ) :
    generateRandomCard draws i ≤ MAX_CARD_VALUE := by
  have h8 : (MAX_CARD_VALUE - MIN_CARD_VALUE + 1) = 8 := rfl
  unfold generateRandomCard
  rw [h8]
  have : draws i % 8 < 8 := Nat.mod_lt _ (by omega)
  simp [MIN_CARD_VALUE, MAX_CARD_VALUE]; omega

theorem dealerFinalTurnFuel_isSome (draws : ℕ → ℕ) :
    ∀ fuel i total hand, DEALER_STANDS_THRESHOLD ≤ total + fuel →
      (dealerFinalTurnFuel draws fuel i total hand).isSome = true := by
  intro fuel
  induction fuel with
  | zero =>
    intro i total hand h1
    have ht : ¬ total < DEALER_STANDS_THRESHOLD := by omega
    simp [dealerFinalTurnFuel, ht]
  | succ f ih =>
    intro i total hand h1
    by_cases ht : total < DEALER_STANDS_THRESHOLD
    · rw [dealerFinalTurnFuel_succ, if_pos ht]
      have hv := generateRandomCard_ge draws i
      have h1' : (MIN_CARD_VALUE : ℕ) = 1 := rfl
      exact ih (i + 1) _ _ (by omega)
    · rw [dealerFinalTurnFuel_succ, if_neg ht]; rfl

theorem option_getD_congr {α : Type} (o : Option α) (a b : α) (h : o.isSome = true) :
    o.getD a = o.getD b := by
  cases o with
  | none => simp at h
  | some x => rfl

theorem dealerFinalTurnFuel_irrel (draws : ℕ → ℕ) :
    ∀ fuel fuel2 i total hand, DEALER_STANDS_THRESHOLD ≤ total + fuel →
      DEALER_STANDS_THRESHOLD ≤ total + fuel2 →
      dealerFinalTurnFuel draws fuel i total hand = dealerFinalTurnFuel draws fuel2 i total hand := by
  intro fuel
  induction fuel with
  | zero =>
    intro fuel2 i total hand h1 h2
    have ht : ¬ total < DEALER_STANDS_THRESHOLD := by omega
    cases fuel2 with
    | zero => rfl
    | succ f2 => rw [dealerFinalTurnFuel_succ, if_neg ht]; simp [dealerFinalTurnFuel, ht]
  | succ f ih =>
    intro fuel2 i total hand h1 h2
    by_cases ht : total < DEALER_STANDS_THRESHOLD
    · obtain ⟨f2, rfl⟩ : ∃ f2, fuel2 = f2 + 1 := by
        cases fuel2 with
        | zero => exact absurd h2 (by omega)
        | succ f2 => exact ⟨f2, rfl⟩
      rw [dealerFinalTurnFuel_succ, if_pos ht, dealerFinalTurnFuel_succ, if_pos ht]
      have hv := generateRandomCard_ge draws i
      have h1' : (MIN_CARD_VALUE : ℕ) = 1 := rfl
      exact ih f2 (i + 1) _ _ (by omega) (by omega)
    · cases fuel2 with
      | zero => rw [dealerFinalTurnFuel_succ, if_neg ht]; simp [dealerFinalTurnFuel, ht]
      | succ f2 => rw [dealerFinalTurnFuel_succ, if_neg ht, dealerFinalTurnFuel_succ, if_neg ht]

/-- `dealerFinalTurn` satisfies the `while` loop's defining equation:
the built-in iteration budget never binds. -/
theorem dealerFinalTurn_eq (draws : ℕ → ℕ) (i total : ℕ) (hand : List ℕ) :
    dealerFinalTurn draws i total hand =
      if total < DEALER_STANDS_THRESHOLD then
        dealerFinalTurn draws (i + 1) (total + generateRandomCard draws i)
          (hand ++ [generateRandomCard draws i])
      else (i, total, hand) := by
  have h14 : (DEALER_STANDS_THRESHOLD : ℕ) = 13 + 1 := rfl
  by_cases ht : total < DEALER_STANDS_THRESHOLD
  · rw [if_pos ht]
    unfold dealerFinalTurn
    rw [h14, dealerFinalTurnFuel_succ, if_pos ht]
    have hv := generateRandomCard_ge draws i
    have h1' : (MIN_CARD_VALUE : ℕ) = 1 := rfl
    rw [dealerFinalTurnFuel_irrel draws 13 (13 + 1) (i + 1) _ _ (by omega) (by omega)]
    exact option_getD_congr _ _ _ (dealerFinalTurnFuel_isSome draws (13 + 1) (i + 1) _ _ (by omega))
  · rw [if_neg ht]
    unfold dealerFinalTurn
    rw [h14, dealerFinalTurnFuel_succ, if_neg ht]
    rfl

/-- The budgeted loop always reaches the threshold within its budget, so
`dealerFinalTurn` is the `some`-value of the budgeted run. -/
theorem dealerFinalTurn_some (draws : ℕ → ℕ) (i total : ℕ) (hand : List ℕ) :
    dealerFinalTurnFuel draws DEALER_STANDS_THRESHOLD i total hand =
      some (dealerFinalTurn draws i total hand) := by
  have hs := dealerFinalTurnFuel_isSome draws DEALER_STANDS_THRESHOLD i total hand (by omega)
  unfold dealerFinalTurn
  cases h : dealerFinalTurnFuel draws DEALER_STANDS_THRESHOLD i total hand with
  | none => rw [h] at hs; simp at hs
  | some r => rfl

/-- Structure of every completed budgeted run: the final hand extends the
initial one by the drawn cards, each in the card range, their number at
most the budget; at least one card is drawn exactly when the loop was
entered below the threshold, and the final total is at least the
threshold. -/
theorem dealerFinalTurnFuel_shape (draws : ℕ → ℕ) :
    ∀ fuel i total hand r, dealerFinalTurnFuel draws fuel i total hand = some r →
      ∃ extra : List ℕ,
        r.2.2 = hand ++ extra ∧ r.2.1 = total + extra.sum ∧
        (∀ v ∈ extra, MIN_CARD_VALUE ≤ v ∧ v ≤ MAX_CARD_VALUE) ∧
        (extra = [] ↔ ¬ total < DEALER_STANDS_THRESHOLD) ∧
        r.1 = i + extra.length ∧ extra.length ≤ fuel ∧
        DEALER_STANDS_THRESHOLD ≤ r.2.1 := by
  intro fuel
  induction fuel with
  | zero =>
    intro i total hand r hr
    by_cases ht : total < DEALER_STANDS_THRESHOLD
    · rw [show dealerFinalTurnFuel draws 0 i total hand =
          (if total < DEALER_STANDS_THRESHOLD then none else some (i, total, hand)) from rfl,
        if_pos ht] at hr
      exact absurd hr (by simp)
    · rw [show dealerFinalTurnFuel draws 0 i total hand =
          (if total < DEALER_STANDS_THRESHOLD then none else some (i, total, hand)) from rfl,
        if_neg ht] at hr
      injection hr with h
      subst h
      exact ⟨[], by simp, by simp, by simp, by simp [ht], by simp, by simp,
        Nat.le_of_not_lt ht⟩
  | succ f ih =>
    intro i total hand r hr
    by_cases ht : total < DEALER_STANDS_THRESHOLD
    · rw [dealerFinalTurnFuel_succ, if_pos ht] at hr
      obtain ⟨extra, he1, he2, he3, _, he5, he6, he7⟩ := ih _ _ _ _ hr
      refine ⟨generateRandomCard draws i :: extra, ?_, ?_, ?_, ?_, ?_, ?_, he7⟩
      · rw [he1]; simp
      · rw [he2]; simp; omega
      · intro v hv
        rcases List.mem_cons.mp hv with h | h
        · subst h; exact ⟨generateRandomCard_ge draws i, generateRandomCard_le draws i⟩
        · exact he3 v h
      · simp [ht]
      · rw [he5]; simp; omega
      · simp; omega
    · rw [dealerFinalTurnFuel_succ, if_neg ht] at hr
      injection hr with h
      subst h
      exact ⟨[], by simp, by simp, by simp, by simp [ht], by simp, by simp,
        Nat.le_of_not_lt ht⟩

/-- The same structure for the loop itself. -/
theorem dealerFinalTurn_shape (draws : ℕ → ℕ) (i total : ℕ) (hand : List ℕ) :
    ∃ extra : List ℕ,
      (dealerFinalTurn draws i total hand).2.2 = hand ++ extra ∧
      (dealerFinalTurn draws i total hand).2.1 = total + extra.sum ∧
      (∀ v ∈ extra, MIN_CARD_VALUE ≤ v ∧ v ≤ MAX_CARD_VALUE) ∧
      (extra = [] ↔ ¬ total < DEALER_STANDS_THRESHOLD) ∧
      (dealerFinalTurn draws i total hand).1 = i + extra.length ∧
      extra.length ≤ DEALER_STANDS_THRESHOLD ∧
      DEALER_STANDS_THRESHOLD ≤ (dealerFinalTurn draws i total hand).2.1 :=
  dealerFinalTurnFuel_shape draws DEALER_STANDS_THRESHOLD i total hand _
    (dealerFinalTurn_some draws i total hand)

/-- The final total never exceeds 21 when the entering total does not. -/
theorem dealerFinalTurnFuel_le21 (draws : ℕ → ℕ) :
    ∀ fuel i total hand r, dealerFinalTurnFuel draws fuel i total hand = some r →
      total ≤ 21 → r.2.1 ≤ 21 := by
  intro fuel
  induction fuel with
  | zero =>
    intro i total hand r hr h21
    by_cases ht : total < DEALER_STANDS_THRESHOLD
    · rw [show dealerFinalTurnFuel draws 0 i total hand =
          (if total < DEALER_STANDS_THRESHOLD then none else some (i, total, hand)) from rfl,
        if_pos ht] at hr
      exact absurd hr (by simp)
    · rw [show dealerFinalTurnFuel draws 0 i total hand =
          (if total < DEALER_STANDS_THRESHOLD then none else some (i, total, hand)) from rfl,
        if_neg ht] at hr
      injection hr with h
      subst h
      exact h21
  | succ f ih =>
    intro i total hand r hr h21
    by_cases ht : total < DEALER_STANDS_THRESHOLD
    · rw [dealerFinalTurnFuel_succ, if_pos ht] at hr
      have hv := generateRandomCard_le draws i
      have h8 : (MAX_CARD_VALUE : ℕ) = 8 := rfl
      have h14 : (DEALER_STANDS_THRESHOLD : ℕ) = 14 := rfl
      exact ih _ _ _ _ hr (by omega)
    · rw [dealerFinalTurnFuel_succ, if_neg ht] at hr
      injection hr with h
      subst h
      exact h21

/-- C5: In the dealer auto-draw phase the Dealer draws (one classical
card in `1..8` per iteration) exactly while its running total is
strictly below the stands threshold of 14; a total at or above 14 —
in particular exactly 14 — produces no draw at all, and drawing stops
only once the total is at least 14. -/
theorem C5_dealer_draw_loop (draws : ℕ → ℕ) (i total : ℕ) (hand : List ℕ) :
    (dealerFinalTurn draws i total hand =
      if total < DEALER_STANDS_THRESHOLD then
        dealerFinalTurn draws (i + 1) (total + generateRandomCard draws i)
          (hand ++ [generateRandomCard draws i])
      else (i, total, hand)) ∧
    (DEALER_STANDS_THRESHOLD ≤ total → dealerFinalTurn draws i total hand = (i, total, hand)) ∧
    dealerFinalTurn draws i DEALER_STANDS_THRESHOLD hand = (i, DEALER_STANDS_THRESHOLD, hand) ∧
    (total < DEALER_STANDS_THRESHOLD →
      ∃ extra : List ℕ, extra ≠ [] ∧
        (dealerFinalTurn draws i total hand).2.2 = hand ++ extra ∧
        (∀ v ∈ extra, MIN_CARD_VALUE ≤ v ∧ v ≤ MAX_CARD_VALUE) ∧
        (dealerFinalTurn draws i total hand).2.1 = total + extra.sum) ∧
    DEALER_STANDS_THRESHOLD ≤ (dealerFinalTurn draws i total hand).2.1 := by
  obtain ⟨extra, he1, he2, he3, he4, he5, he6, he7⟩ := dealerFinalTurn_shape draws i total hand
  refine ⟨dealerFinalTurn_eq draws i total hand, ?_, ?_, ?_, he7⟩
  · intro h
    rw [dealerFinalTurn_eq, if_neg (by omega)]
  · rw [dealerFinalTurn_eq, if_neg (by omega)]
  · intro ht
    refine ⟨extra, ?_, he1, he3, he2⟩
    intro hnil
    exact (he4.mp hnil) ht

/-- C7 (amended): the loop enforces no explicit iteration-count cap, but
since every drawn card is at least `MIN_CARD_VALUE = 1`, for every
possible sequence of drawn card values the loop terminates, within a
structural budget of 13 iterations from any positive entering total. -/
theorem C7_draw_loop_capped (draws : ℕ → ℕ) (i total : ℕ) (hand : List ℕ)
    (h1 : MIN_CARD_VALUE ≤ total) :
    dealerFinalTurnFuel draws 13 i total hand = some (dealerFinalTurn draws i total hand) ∧
    (dealerFinalTurn draws i total hand).2.2.length ≤ hand.length + 13 := by
  have h1' : (MIN_CARD_VALUE : ℕ) = 1 := rfl
  have h14 : (DEALER_STANDS_THRESHOLD : ℕ) = 14 := rfl
  have heq : dealerFinalTurnFuel draws 13 i total hand =
      dealerFinalTurnFuel draws DEALER_STANDS_THRESHOLD i total hand :=
    dealerFinalTurnFuel_irrel draws 13 DEALER_STANDS_THRESHOLD i total hand (by omega) (by omega)
  constructor
  · rw [heq, dealerFinalTurn_some]
  · obtain ⟨extra, he1, -, -, -, -, he6, -⟩ :=
      dealerFinalTurnFuel_shape draws 13 i total hand _ (heq.trans (dealerFinalTurn_some draws i total hand))
    rw [he1, List.length_append]
    omega

/-- C7, the claim as stated is false: there is no sequence of drawn card
values on which the dealer loop outlives a 13-iteration budget from the
smallest positive total, i.e. termination is guaranteed for every
possible draw sequence. -/
theorem C7_counterexample :
    ¬ ∃ draws : ℕ → ℕ, dealerFinalTurnFuel draws 13 0 MIN_CARD_VALUE [] = none := by
  rintro ⟨draws, h⟩
  have h1' : (MIN_CARD_VALUE : ℕ) = 1 := rfl
  have h14 : (DEALER_STANDS_THRESHOLD : ℕ) = 14 := rfl
  have := dealerFinalTurnFuel_isSome draws 13 0 MIN_CARD_VALUE [] (by omega)
  rw [h] at this
  simp at this

/-- C7 witness: a concrete positive entering total, with the budgeted run
completing and the hand growing by at most 13 cards. -/
theorem C7_witness :
    MIN_CARD_VALUE ≤ 2 ∧
    (dealerFinalTurnFuel (fun _ => 0) 13 0 2 [] =
      some (dealerFinalTurn (fun _ => 0) 0 2 []) ∧
      (dealerFinalTurn (fun _ => 0) 0 2 []).2.2.length ≤ ([] : List ℕ).length + 13) :=
  ⟨by decide, C7_draw_loop_capped (fun _ => 0) 0 2 [] (by decide)⟩

/-- The slot-1 group of a register string, reversed as the code does, is
the group's bits in register order (lowest qubit index first). -/
theorem slot1Slice_regString (r : RegBits) : slot1Slice (regString r) = [r 3, r 4, r 5] := rfl

/-- Likewise for the slot-2 group. -/
theorem slot2Slice_regString (r : RegBits) : slot2Slice (regString r) = [r 0, r 1, r 2] := rfl

/-- Value of a 3-bit group, explicitly. -/
theorem getCardValueFromBinary_three (a b c : Bool) :
    getCardValueFromBinary [a, b, c] =
      4 * (if a then 1 else 0) + 2 * (if b then 1 else 0) + (if c then 1 else 0) + 1 := by
  cases a <;> cases b <;> cases c <;> decide

/-- Range of the value of a 3-bit group. -/
theorem getCardValueFromBinary_three_range (a b c : Bool) :
    MIN_CARD_VALUE ≤ getCardValueFromBinary [a, b, c] ∧
      getCardValueFromBinary [a, b, c] ≤ MAX_CARD_VALUE := by
  cases a <;> cases b <;> cases c <;> decide

/-- C4: every sampled 3-bit slot group derives the card value "reversed
bit string read as a binary integer, plus 1", always in `1..8`; at
measure level 3 both players' hands are `[initial, slot-1, slot-2]`
unconditionally, while the Dealer's slot-2 value is appended exactly when
the Dealer's running total (initial plus slot-1) is strictly below 14. -/
theorem C4_card_derivation (res : PMap RegBits) (s : GameState)
    (h3 : s.measureLevel = 3) :
    (∀ r : RegBits,
      getCardValueFromBinary (slot1Slice (regString r)) =
        4 * (if r 3 then 1 else 0) + 2 * (if r 4 then 1 else 0) + (if r 5 then 1 else 0) + 1 ∧
      getCardValueFromBinary (slot2Slice (regString r)) =
        4 * (if r 0 then 1 else 0) + 2 * (if r 1 then 1 else 0) + (if r 2 then 1 else 0) + 1 ∧
      MIN_CARD_VALUE ≤ getCardValueFromBinary (slot1Slice (regString r)) ∧
      getCardValueFromBinary (slot1Slice (regString r)) ≤ MAX_CARD_VALUE ∧
      MIN_CARD_VALUE ≤ getCardValueFromBinary (slot2Slice (regString r)) ∧
      getCardValueFromBinary (slot2Slice (regString r)) ≤ MAX_CARD_VALUE) ∧
    (processQuantumResults res s).playerHands.p1 =
      [s.initialCards.p1, getCardValueFromBinary (slot1Slice (regString res.p1)),
        getCardValueFromBinary (slot2Slice (regString res.p1))] ∧
    (processQuantumResults res s).playerHands.p2 =
      [s.initialCards.p2, getCardValueFromBinary (slot1Slice (regString res.p2)),
        getCardValueFromBinary (slot2Slice (regString res.p2))] ∧
    (s.initialCards.dealer + getCardValueFromBinary (slot1Slice (regString res.dealer)) <
        DEALER_STANDS_THRESHOLD →
      (processQuantumResults res s).playerHands.dealer =
        [s.initialCards.dealer, getCardValueFromBinary (slot1Slice (regString res.dealer)),
          getCardValueFromBinary (slot2Slice (regString res.dealer))]) ∧
    (¬ s.initialCards.dealer + getCardValueFromBinary (slot1Slice (regString res.dealer)) <
        DEALER_STANDS_THRESHOLD →
      (processQuantumResults res s).playerHands.dealer =
        [s.initialCards.dealer, getCardValueFromBinary (slot1Slice (regString res.dealer))]) := by
  refine ⟨?_, ?_, ?_, ?_, ?_⟩
  · intro r
    rw [slot1Slice_regString, slot2Slice_regString]
    exact ⟨getCardValueFromBinary_three _ _ _, getCardValueFromBinary_three _ _ _,
      (getCardValueFromBinary_three_range _ _ _).1, (getCardValueFromBinary_three_range _ _ _).2,
      (getCardValueFromBinary_three_range _ _ _).1, (getCardValueFromBinary_three_range _ _ _).2⟩
  · simp [processQuantumResults, h3, PMap.get]
  · simp [processQuantumResults, h3, PMap.get]
  · intro hlt
    have hc : [s.initialCards.dealer,
        getCardValueFromBinary (slot1Slice (regString res.dealer))].sum < DEALER_STANDS_THRESHOLD := by
      simp only [List.sum_cons, List.sum_nil]; omega
    simp [processQuantumResults, h3, PMap.get, hc]
    omega
  · intro hlt
    have hc : ¬ [s.initialCards.dealer,
        getCardValueFromBinary (slot1Slice (regString res.dealer))].sum < DEALER_STANDS_THRESHOLD := by
      simp only [List.sum_cons, List.sum_nil]; omega
    simp [processQuantumResults, h3, PMap.get, hc]
    omega

/-- C4 witness: the all-zero sample in the initial state (measure level
3), where every slot value is 1 and the dealer total stays below 14. -/
theorem C4_witness :
    initState.measureLevel = 3 ∧
    (processQuantumResults (sample0 0) initState).playerHands.p1 =
      [initState.initialCards.p1,
        getCardValueFromBinary (slot1Slice (regString ((sample0 0).p1))),
        getCardValueFromBinary (slot2Slice (regString ((sample0 0).p1)))] :=
  ⟨rfl, (C4_card_derivation (sample0 0) initState rfl).2.1⟩

theorem foldl_max_le_init (l : List ℕ) : ∀ a : ℕ, a ≤ l.foldl max a := by
  induction l with
  | nil => intro a; exact le_refl a
  | cons b t ih =>
    intro a
    exact le_trans (le_max_left a b) (ih (max a b))

theorem mem_le_foldl_max (l : List ℕ) : ∀ a x, x ∈ l → x ≤ l.foldl max a := by
  induction l with
  | nil => intro a x hx; simp at hx
  | cons b t ih =>
    intro a x hx
    rcases List.mem_cons.mp hx with h | h
    · subst h
      exact le_trans (le_max_right a x) (foldl_max_le_init t (max a x))
    · exact ih (max a b) x h

theorem foldl_max_mem (l : List ℕ) : ∀ a, l.foldl max a = a ∨ l.foldl max a ∈ l := by
  induction l with
  | nil => intro a; exact Or.inl rfl
  | cons b t ih =>
    intro a
    rcases ih (max a b) with h | h
    · rcases max_choice a b with hm | hm
      · exact Or.inl (by rw [List.foldl_cons, h, hm])
      · refine Or.inr ?_
        rw [List.foldl_cons, h, hm]
        exact List.mem_cons_self b t
    · exact Or.inr (List.mem_cons_of_mem b h)

theorem headI_mem_of_ne_nil {α : Type} [Inhabited α] (l : List α) (h : l ≠ []) :
    l.headI ∈ l := by
  cases l with
  | nil => exact absurd rfl h
  | cons a t => exact List.mem_cons_self a t

theorem mem_playersInOrder (p : Player) : p ∈ playersInOrder := by
  cases p <;> decide

theorem mem_validPlayers (scores : PMap ℕ) (p : Player) :
    p ∈ validPlayers scores ↔ scores.get p ≤ TARGET_SCORE := by
  unfold validPlayers
  rw [List.mem_filter]
  constructor
  · rintro ⟨h1, h2⟩
    exact of_decide_eq_true h2
  · intro h
    exact ⟨mem_playersInOrder p, decide_eq_true h⟩

theorem mem_winnersOf (scores : PMap ℕ) (p : Player) :
    p ∈ winnersOf scores ↔
      (scores.get p ≤ TARGET_SCORE ∧ scores.get p = maxValidScore scores) := by
  unfold winnersOf
  rw [List.mem_filter]
  constructor
  · rintro ⟨h1, h2⟩
    exact ⟨(mem_validPlayers scores p).mp h1, of_decide_eq_true h2⟩
  · rintro ⟨h1, h2⟩
    exact ⟨(mem_validPlayers scores p).mpr h1, decide_eq_true h2⟩

theorem le_maxValidScore (scores : PMap ℕ) (q : Player)
    (hq : scores.get q ≤ TARGET_SCORE) : scores.get q ≤ maxValidScore scores :=
  mem_le_foldl_max _ 0 _ (List.mem_map_of_mem scores.get ((mem_validPlayers scores q).mpr hq))

theorem validPlayers_empty_iff (scores : PMap ℕ) :
    (validPlayers scores).isEmpty = true ↔ ∀ p : Player, TARGET_SCORE < scores.get p := by
  rw [List.isEmpty_iff]
  constructor
  · intro hnil p
    by_contra hb
    have hp : p ∈ validPlayers scores := (mem_validPlayers scores p).mpr (by omega)
    rw [hnil] at hp
    simp at hp
  · intro hall
    cases hv : validPlayers scores with
    | nil => rfl
    | cons q t =>
      have hq : q ∈ validPlayers scores := by rw [hv]; exact List.mem_cons_self q t
      have h1 := (mem_validPlayers scores q).mp hq
      have h2 := hall q
      omega

theorem winnersOf_ne_nil (scores : PMap ℕ) (he : (validPlayers scores).isEmpty = false) :
    winnersOf scores ≠ [] := by
  intro hnil
  have hne : validPlayers scores ≠ [] := by
    intro h; rw [h] at he; simp at he
  obtain ⟨q, hq⟩ := List.exists_mem_of_ne_nil _ hne
  have hqv := (mem_validPlayers scores q).mp hq
  have hqle : scores.get q ≤ maxValidScore scores := le_maxValidScore scores q hqv
  have hMm : maxValidScore scores = 0 ∨
      maxValidScore scores ∈ (validPlayers scores).map scores.get := foldl_max_mem _ 0
  rcases hMm with hM0 | hMmem
  · have hq0 : scores.get q = maxValidScore scores := by omega
    have : q ∈ winnersOf scores := (mem_winnersOf scores q).mpr ⟨hqv, hq0⟩
    rw [hnil] at this
    simp at this
  · obtain ⟨q2, hq2, hq2m⟩ := List.mem_map.mp hMmem
    have : q2 ∈ winnersOf scores :=
      (mem_winnersOf scores q2).mpr ⟨(mem_validPlayers scores q2).mp hq2, hq2m⟩
    rw [hnil] at this
    simp at this

/-- C6: a participant busts exactly when its score exceeds the target
score of 17 (it is then excluded from `valid_scores`); if everyone busts
the outcome is "house wins"; a single-winner outcome names a non-busted
participant holding the maximum non-busted score uniquely; a tie outcome
lists exactly the non-busted participants at that shared maximum, and
there are at least two of them. -/
theorem C6_scoring (scores : PMap ℕ) :
    (∀ p : Player, p ∈ validPlayers scores ↔ ¬ TARGET_SCORE < scores.get p) ∧
    (generateFinalSummary scores = Outcome.houseWins ↔
      ∀ p : Player, TARGET_SCORE < scores.get p) ∧
    (∀ p m, generateFinalSummary scores = Outcome.winner p m →
      ¬ TARGET_SCORE < scores.get p ∧ scores.get p = m ∧
      (∀ q : Player, ¬ TARGET_SCORE < scores.get q →
        scores.get q ≤ m ∧ (scores.get q = m → q = p))) ∧
    (∀ l m, generateFinalSummary scores = Outcome.tie l m →
      1 < l.length ∧
      (∀ p : Player, p ∈ l ↔ (¬ TARGET_SCORE < scores.get p ∧ scores.get p = m)) ∧
      (∀ q : Player, ¬ TARGET_SCORE < scores.get q → scores.get q ≤ m)) := by
  refine ⟨fun p => by rw [mem_validPlayers scores p]; omega, ?_, ?_, ?_⟩
  · unfold generateFinalSummary
    by_cases he : (validPlayers scores).isEmpty
    · rw [if_pos he]
      exact iff_of_true rfl ((validPlayers_empty_iff scores).mp he)
    · rw [if_neg he]
      refine iff_of_false ?_ ?_
      · by_cases hlen : 1 < (winnersOf scores).length
        · rw [if_pos hlen]; simp
        · rw [if_neg hlen]; simp
      · intro hall
        exact he ((validPlayers_empty_iff scores).mpr hall)
  · intro p m h
    unfold generateFinalSummary at h
    by_cases he : (validPlayers scores).isEmpty
    · rw [if_pos he] at h; simp at h
    · rw [if_neg he] at h
      by_cases hlen : 1 < (winnersOf scores).length
      · rw [if_pos hlen] at h; simp at h
      · rw [if_neg hlen] at h
        injection h with h1 h2
        subst h2
        have hne : winnersOf scores ≠ [] :=
          winnersOf_ne_nil scores (by simpa using he)
        have hpw : p ∈ winnersOf scores := by
          rw [← h1]
          exact headI_mem_of_ne_nil _ hne
        obtain ⟨hple, hpm⟩ := (mem_winnersOf scores p).mp hpw
        refine ⟨by omega, hpm, ?_⟩
        intro q hq
        have hqle : scores.get q ≤ maxValidScore scores := le_maxValidScore scores q (by omega)
        refine ⟨by omega, ?_⟩
        intro hqm
        have hqw : q ∈ winnersOf scores := (mem_winnersOf scores q).mpr ⟨by omega, hqm⟩
        have hlen1 : (winnersOf scores).length = 1 := by
          have := List.length_pos_of_ne_nil hne
          omega
        obtain ⟨w, hw⟩ := List.length_eq_one.mp hlen1
        rw [hw] at hpw hqw
        simp at hpw hqw
        rw [hqw, hpw]
  · intro l m h
    unfold generateFinalSummary at h
    by_cases he : (validPlayers scores).isEmpty
    · rw [if_pos he] at h; simp at h
    · rw [if_neg he] at h
      by_cases hlen : 1 < (winnersOf scores).length
      · rw [if_pos hlen] at h
        injection h with h1 h2
        subst h1; subst h2
        refine ⟨hlen, ?_, ?_⟩
        · intro p
          rw [mem_winnersOf scores p]
          omega
        · intro q hq
          exact le_maxValidScore scores q (by omega)
      · rw [if_neg hlen] at h; simp at h

/-! ### The turn state machine -/

theorem determineTurnOrder_length (coins : ℕ → Bool) (i : ℕ) :
    (determineTurnOrder coins i).length = 2 := by
  unfold determineTurnOrder
  split <;> rfl

theorem startGame_ActiveInv (coins : ℕ → Bool) (draws : ℕ → ℕ) (w : World) :
    ActiveInv (startGame coins draws w) :=
  ⟨rfl, determineTurnOrder_length coins w.coinIdx, Nat.zero_lt_two, Or.inl rfl,
    generateRandomCard_ge draws w.drawIdx, generateRandomCard_le draws w.drawIdx⟩

/-- `_add_measurements_to_circuit` changes only the circuit, appending
three measurement operations. -/
theorem addMeasurements_fields (s : GameState) :
    (addMeasurements s).playerScores = s.playerScores ∧
    (addMeasurements s).initialCards = s.initialCards ∧
    (addMeasurements s).playerHands = s.playerHands ∧
    (addMeasurements s).playerTurnOrder = s.playerTurnOrder ∧
    (addMeasurements s).currentPlayerIndex = s.currentPlayerIndex ∧
    (addMeasurements s).gameOver = s.gameOver ∧
    (addMeasurements s).currentRound = s.currentRound ∧
    (addMeasurements s).measureLevel = s.measureLevel ∧
    (addMeasurements s).qc.length = s.qc.length + 3 := by
  unfold addMeasurements
  split <;> simp

/-- `_process_quantum_results` changes only hands and scores. -/
theorem processQuantumResults_fields (res : PMap RegBits) (s : GameState) :
    (processQuantumResults res s).initialCards = s.initialCards ∧
    (processQuantumResults res s).playerTurnOrder = s.playerTurnOrder ∧
    (processQuantumResults res s).currentPlayerIndex = s.currentPlayerIndex ∧
    (processQuantumResults res s).gameOver = s.gameOver ∧
    (processQuantumResults res s).currentRound = s.currentRound ∧
    (processQuantumResults res s).measureLevel = s.measureLevel ∧
    (processQuantumResults res s).qc = s.qc := by
  unfold processQuantumResults
  split <;> simp

/-- The dealer's score right after `_process_quantum_results` is between
2 and 21 when the initial card is in the card range: the hand is the
initial card and the slot-1 value, plus the slot-2 value only when their
sum is still below the stands threshold. -/
theorem processQuantumResults_dealer_score (res : PMap RegBits) (s : GameState)
    (h1 : MIN_CARD_VALUE ≤ s.initialCards.dealer)
    (h8 : s.initialCards.dealer ≤ MAX_CARD_VALUE) :
    (processQuantumResults res s).playerScores.dealer ≤ 21 := by
  have h1' : (MIN_CARD_VALUE : ℕ) = 1 := rfl
  have h8' : (MAX_CARD_VALUE : ℕ) = 8 := rfl
  have h14 : (DEALER_STANDS_THRESHOLD : ℕ) = 14 := rfl
  have hq1 := getCardValueFromBinary_three_range
    ((res.get .dealer) 3) ((res.get .dealer) 4) ((res.get .dealer) 5)
  have hq2 := getCardValueFromBinary_three_range
    ((res.get .dealer) 0) ((res.get .dealer) 1) ((res.get .dealer) 2)
  rw [← slot1Slice_regString] at hq1
  rw [← slot2Slice_regString] at hq2
  unfold processQuantumResults
  split
  · simp only [PMap.get] at *
    split
    · simp only [List.sum_append, List.sum_cons, List.sum_nil] at *
      omega
    · simp only [List.sum_cons, List.sum_nil] at *
      omega
  · simp only [PMap.get, List.sum_cons, List.sum_nil] at *
    omega

/-- Fields of the state `_end_game` does not touch, and the fields it
sets: the flag, the measurement operations appended to the circuit. -/
theorem endGame_fields (draws : ℕ → ℕ) (sample : ℕ → PMap RegBits) (w : World) :
    (endGame draws sample w).state.gameOver = true ∧
    (endGame draws sample w).state.measureLevel = w.state.measureLevel ∧
    (endGame draws sample w).state.currentRound = w.state.currentRound ∧
    (endGame draws sample w).state.currentPlayerIndex = w.state.currentPlayerIndex ∧
    (endGame draws sample w).state.playerTurnOrder = w.state.playerTurnOrder ∧
    (endGame draws sample w).state.initialCards = w.state.initialCards ∧
    (endGame draws sample w).state.qc.length = w.state.qc.length + 3 := by
  obtain ⟨ha1, ha2, ha3, ha4, ha5, ha6, ha7, ha8, ha9⟩ :=
    addMeasurements_fields { w.state with gameOver := true }
  obtain ⟨hp1, hp2, hp3, hp4, hp5, hp6, hp7⟩ :=
    processQuantumResults_fields (sample w.sampleIdx) (addMeasurements { w.state with gameOver := true })
  refine ⟨?_, ?_, ?_, ?_, ?_, ?_, ?_⟩ <;>
    simp only [endGame] <;>
    simp [hp1, hp2, hp3, hp4, hp5, hp6, hp7, ha1, ha2, ha3, ha4, ha5, ha6, ha7, ha8, ha9]

/-- The dealer's score of any ended pipeline run is in `[14, 21]`. -/
theorem endGame_dealer_score (draws : ℕ → ℕ) (sample : ℕ → PMap RegBits) (w : World)
    (h1 : MIN_CARD_VALUE ≤ w.state.initialCards.dealer)
    (h8 : w.state.initialCards.dealer ≤ MAX_CARD_VALUE) :
    DEALER_STANDS_THRESHOLD ≤ (endGame draws sample w).state.playerScores.dealer ∧
    (endGame draws sample w).state.playerScores.dealer ≤ 21 := by
  have hproj : (endGame draws sample w).state.playerScores.dealer =
      (dealerFinalTurn draws w.drawIdx
        (processQuantumResults (sample w.sampleIdx)
          (addMeasurements { w.state with gameOver := true })).playerScores.dealer
        (processQuantumResults (sample w.sampleIdx)
          (addMeasurements { w.state with gameOver := true })).playerHands.dealer).2.1 := rfl
  obtain ⟨ha1, ha2, ha3, ha4, ha5, ha6, ha7, ha8, ha9⟩ :=
    addMeasurements_fields { w.state with gameOver := true }
  have hinit : (addMeasurements { w.state with gameOver := true }).initialCards.dealer =
      w.state.initialCards.dealer := by rw [ha2]
  have hs2le : (processQuantumResults (sample w.sampleIdx)
      (addMeasurements { w.state with gameOver := true })).playerScores.dealer ≤ 21 :=
    processQuantumResults_dealer_score _ _ (by rw [hinit]; exact h1) (by rw [hinit]; exact h8)
  obtain ⟨extra, he1, he2, he3, he4, he5, he6, he7⟩ :=
    dealerFinalTurn_shape draws w.drawIdx
      (processQuantumResults (sample w.sampleIdx)
        (addMeasurements { w.state with gameOver := true })).playerScores.dealer
      (processQuantumResults (sample w.sampleIdx)
        (addMeasurements { w.state with gameOver := true })).playerHands.dealer
  refine ⟨by rw [hproj]; exact he7, ?_⟩
  rw [hproj]
  exact dealerFinalTurnFuel_le21 draws DEALER_STANDS_THRESHOLD w.drawIdx _ _ _
    (dealerFinalTurn_some draws w.drawIdx _ _) hs2le

theorem onAction_measure (coins : ℕ → Bool) (draws : ℕ → ℕ) (sample : ℕ → PMap RegBits)
    (w : World) (h : w.state.currentPlayerIndex < w.state.playerTurnOrder.length) :
    onActionButtonClicked coins draws sample w PlayerAction.measure =
      some (endGame draws sample
        { w with state := { w.state with measureLevel := w.state.currentRound + 1 } }) := by
  unfold onActionButtonClicked
  rw [List.getElem?_eq_getElem h]

theorem onAction_pass (coins : ℕ → Bool) (draws : ℕ → ℕ) (sample : ℕ → PMap RegBits)
    (w : World) (h : w.state.currentPlayerIndex < w.state.playerTurnOrder.length) :
    onActionButtonClicked coins draws sample w PlayerAction.pass =
      some (nextTurn coins draws sample w) := by
  unfold onActionButtonClicked
  rw [List.getElem?_eq_getElem h]

theorem onAction_reshuffle (coins : ℕ → Bool) (draws : ℕ → ℕ) (sample : ℕ → PMap RegBits)
    (w : World) (choice : Fin 2) (h : w.state.currentPlayerIndex < w.state.playerTurnOrder.length) :
    ∃ ops : List Op,
      onActionButtonClicked coins draws sample w (PlayerAction.reshuffle choice) =
        some (nextTurn coins draws sample
          { w with state := { w.state with qc := w.state.qc ++ ops } }) := by
  unfold onActionButtonClicked
  rw [List.getElem?_eq_getElem h]
  exact ⟨_, rfl⟩

theorem onAction_none (coins : ℕ → Bool) (draws : ℕ → ℕ) (sample : ℕ → PMap RegBits)
    (w : World) (a : PlayerAction)
    (h : w.state.playerTurnOrder.length ≤ w.state.currentPlayerIndex) :
    onActionButtonClicked coins draws sample w a = none := by
  unfold onActionButtonClicked
  rw [List.getElem?_eq_none_iff.mpr h]

theorem nextTurn_spec (coins : ℕ → Bool) (draws : ℕ → ℕ) (sample : ℕ → PMap RegBits)
    (w : World) (hLen : w.state.playerTurnOrder.length = 2) :
    (w.state.currentPlayerIndex = 0 →
      nextTurn coins draws sample w =
        { w with state := { w.state with currentPlayerIndex := 1 } }) ∧
    (w.state.currentPlayerIndex = 1 → w.state.currentRound = 1 →
      nextTurn coins draws sample w =
        { state := { w.state with
                      currentPlayerIndex := 0, currentRound := 2,
                      playerTurnOrder := determineTurnOrder coins w.coinIdx },
          coinIdx := w.coinIdx + 1, drawIdx := w.drawIdx, sampleIdx := w.sampleIdx }) ∧
    (w.state.currentPlayerIndex = 1 → w.state.currentRound = 2 →
      nextTurn coins draws sample w =
        endGame draws sample
          { w with state := { w.state with
                                currentPlayerIndex := 2, currentRound := 3,
                                measureLevel := 3 } }) := by
  refine ⟨?_, ?_, ?_⟩
  · intro h0
    simp only [nextTurn, hLen, h0]
    norm_num
  · intro h1 hr1
    simp only [nextTurn, hLen, h1, hr1]
    norm_num
  · intro h1 hr2
    simp only [nextTurn, hLen, h1, hr2]
    norm_num

theorem run_of_ended (coins : ℕ → Bool) (draws : ℕ → ℕ) (sample : ℕ → PMap RegBits)
    (w : World) (h : w.state.gameOver = true) (acts : List PlayerAction) :
    run coins draws sample w acts = some w := by
  cases acts with
  | nil => rfl
  | cons a rest =>
    unfold run
    rw [h]
    rfl

theorem measureRound_of_ended (coins : ℕ → Bool) (draws : ℕ → ℕ) (sample : ℕ → PMap RegBits)
    (w : World) (h : w.state.gameOver = true) (acts : List PlayerAction) :
    measureRound coins draws sample w acts = none := by
  cases acts with
  | nil => rfl
  | cons a rest =>
    unfold measureRound
    rw [h]
    rfl

/-- A non-ending action's successor through `_next_turn`: either the
session stays active with the invariant intact and the play continues,
or (second player of round 2) the session ends through the default
3-card pipeline. -/
theorem nextTurn_run_spec (coins : ℕ → Bool) (draws : ℕ → ℕ) (sample : ℕ → PMap RegBits)
    (rest : List PlayerAction)
    (ih : ∀ w w2, ActiveInv w → run coins draws sample w rest = some w2 →
      w2.state.gameOver = true →
      EndedSpec (measureRound coins draws sample w rest) w2) :
    ∀ w w2, ActiveInv w →
      run coins draws sample (nextTurn coins draws sample w) rest = some w2 →
      w2.state.gameOver = true →
      EndedSpec (measureRound coins draws sample (nextTurn coins draws sample w) rest) w2 := by
  intro w w2 hInv hrun hend
  obtain ⟨hgo, hlen, hidx, hround, hd1, hd8⟩ := hInv
  obtain ⟨hn0, hn1, hn2⟩ := nextTurn_spec coins draws sample w hlen
  have hcases : w.state.currentPlayerIndex = 0 ∨ w.state.currentPlayerIndex = 1 := by omega
  rcases hcases with h0 | h1
  · -- first player of the round: only the index advances
    rw [hn0 h0] at hrun ⊢
    exact ih _ w2 ⟨hgo, hlen, by simp, hround, hd1, hd8⟩ hrun hend
  · rcases hround with hr1 | hr2
    · -- second player of round 1: round 2 starts with a fresh toss
      rw [hn1 h1 hr1] at hrun ⊢
      exact ih _ w2
        ⟨hgo, by simpa using determineTurnOrder_length coins w.coinIdx, by simp,
          Or.inr (by simp), hd1, hd8⟩ hrun hend
    · -- second player of round 2: pass-through ending, measure level 3
      rw [hn2 h1 hr2] at hrun ⊢
      have hEnd : (endGame draws sample
          { w with state := { w.state with
                                currentPlayerIndex := 2, currentRound := 3,
                                measureLevel := 3 } }).state.gameOver = true :=
        (endGame_fields draws sample _).1
      rw [run_of_ended coins draws sample _ hEnd rest] at hrun
      injection hrun with hw2
      subst hw2
      rw [measureRound_of_ended coins draws sample _ hEnd rest]
      refine ⟨endGame_dealer_score draws sample _ hd1 hd8, Or.inr ⟨rfl, ?_⟩⟩
      rw [(endGame_fields draws sample _).2.1]

/-- Every terminating play from a state satisfying the invariant ends
with the dealer's score in `[14, 21]` and the measure level fixed by the
round of the Measure action (2 or 3), or 3 when nobody measured. -/
theorem run_ended_spec (coins : ℕ → Bool) (draws : ℕ → ℕ) (sample : ℕ → PMap RegBits) :
    ∀ (acts : List PlayerAction) (w w2 : World), ActiveInv w →
      run coins draws sample w acts = some w2 → w2.state.gameOver = true →
      EndedSpec (measureRound coins draws sample w acts) w2 := by
  intro acts
  induction acts with
  | nil =>
    intro w w2 hInv hrun hend
    injection hrun with hw
    subst hw
    rw [hInv.1] at hend
    exact absurd hend (by simp)
  | cons a rest ih =>
    intro w w2 hInv hrun hend
    have hgo := hInv.1
    have hidx : w.state.currentPlayerIndex < w.state.playerTurnOrder.length := by
      have := hInv.2.1
      have := hInv.2.2.1
      omega
    rw [show run coins draws sample w (a :: rest) =
        (if w.state.gameOver then some w
         else
           match onActionButtonClicked coins draws sample w a with
           | none => none
           | some w3 => run coins draws sample w3 rest) from rfl,
      hgo] at hrun
    simp only [Bool.false_eq_true, if_false] at hrun
    cases a with
    | measure =>
      rw [onAction_measure coins draws sample w hidx] at hrun
      simp only at hrun
      have hEnd : (endGame draws sample
          { w with state := { w.state with measureLevel := w.state.currentRound + 1 } }).state.gameOver = true :=
        (endGame_fields draws sample _).1
      rw [run_of_ended coins draws sample _ hEnd rest] at hrun
      injection hrun with hw2
      subst hw2
      rw [show measureRound coins draws sample w (PlayerAction.measure :: rest) =
          (if w.state.gameOver then none else some w.state.currentRound) from rfl, hgo]
      simp only [Bool.false_eq_true, if_false]
      refine ⟨endGame_dealer_score draws sample _ hInv.2.2.2.2.1 hInv.2.2.2.2.2,
        Or.inl ⟨w.state.currentRound, rfl, hInv.2.2.2.1, ?_⟩⟩
      rw [(endGame_fields draws sample _).2.1]
    | pass =>
      rw [onAction_pass coins draws sample w hidx] at hrun
      simp only at hrun
      have hmr : measureRound coins draws sample w (PlayerAction.pass :: rest) =
          measureRound coins draws sample (nextTurn coins draws sample w) rest := by
        rw [show measureRound coins draws sample w (PlayerAction.pass :: rest) =
            (if w.state.gameOver then none
             else
               match onActionButtonClicked coins draws sample w PlayerAction.pass with
               | none => none
               | some w3 => measureRound coins draws sample w3 rest) from rfl, hgo]
        simp only [Bool.false_eq_true, if_false]
        rw [onAction_pass coins draws sample w hidx]
      rw [hmr]
      exact nextTurn_run_spec coins draws sample rest ih w w2 hInv hrun hend
    | reshuffle choice =>
      obtain ⟨ops, hstep⟩ := onAction_reshuffle coins draws sample w choice hidx
      rw [hstep] at hrun
      simp only at hrun
      have hInvQ : ActiveInv { w with state := { w.state with qc := w.state.qc ++ ops } } :=
        ⟨hInv.1, hInv.2.1, hInv.2.2.1, hInv.2.2.2.1, hInv.2.2.2.2.1, hInv.2.2.2.2.2⟩
      have hmr : measureRound coins draws sample w (PlayerAction.reshuffle choice :: rest) =
          measureRound coins draws sample
            (nextTurn coins draws sample
              { w with state := { w.state with qc := w.state.qc ++ ops } }) rest := by
        rw [show measureRound coins draws sample w (PlayerAction.reshuffle choice :: rest) =
            (if w.state.gameOver then none
             else
               match onActionButtonClicked coins draws sample w (PlayerAction.reshuffle choice) with
               | none => none
               | some w3 => measureRound coins draws sample w3 rest) from rfl, hgo]
        simp only [Bool.false_eq_true, if_false]
        rw [hstep]
      rw [hmr]
      exact nextTurn_run_spec coins draws sample rest ih _ w2 hInvQ hrun hend

/-- C3: in every terminating play of a session, the measure level is 2
exactly when a player chose Measure (End) during round 1; choosing it in
round r freezes the level to r + 1, and every play that terminates
without a Measure action has measure level 3. -/
theorem C3_measure_level (coins : ℕ → Bool) (draws : ℕ → ℕ) (sample : ℕ → PMap RegBits)
    (w0 : World) (acts : List PlayerAction) (w2 : World)
    (hrun : run coins draws sample (startGame coins draws w0) acts = some w2)
    (hend : w2.state.gameOver = true) :
    (w2.state.measureLevel = 2 ↔
      measureRound coins draws sample (startGame coins draws w0) acts = some 1) ∧
    (∀ r, measureRound coins draws sample (startGame coins draws w0) acts = some r →
      w2.state.measureLevel = r + 1) ∧
    (measureRound coins draws sample (startGame coins draws w0) acts = none →
      w2.state.measureLevel = 3) := by
  obtain ⟨-, hspec⟩ := run_ended_spec coins draws sample acts (startGame coins draws w0) w2
    (startGame_ActiveInv coins draws w0) hrun hend
  refine ⟨?_, ?_, ?_⟩
  · constructor
    · intro h2
      rcases hspec with ⟨r, hr, hr12, hlvl⟩ | ⟨-, hlvl⟩
      · rw [hr]
        rw [hlvl] at h2
        have : r = 1 := by omega
        rw [this]
      · rw [hlvl] at h2
        omega
    · intro h1
      rcases hspec with ⟨r, hr, hr12, hlvl⟩ | ⟨hnone, -⟩
      · rw [hr] at h1
        injection h1 with hr1
        rw [hlvl]
        omega
      · rw [hnone] at h1
        exact absurd h1 (by simp)
  · intro r hr
    rcases hspec with ⟨r2, hr2, hr12, hlvl⟩ | ⟨hnone, -⟩
    · rw [hr2] at hr
      injection hr with hrr
      rw [hlvl, hrr]
    · rw [hnone] at hr
      exact absurd hr (by simp)
  · intro hnone
    rcases hspec with ⟨r2, hr2, -, -⟩ | ⟨-, hlvl⟩
    · rw [hr2] at hnone
      exact absurd hnone (by simp)
    · exact hlvl

/-- C3 witness: the play in which Player 1 measures in round 1 on the
demo streams ends with measure level 2 and the Measure round recorded
as 1. -/
theorem C3_witness :
    (run coins0 draws7 sample0 (startGame coins0 draws7 initWorld) [PlayerAction.measure] =
        some demoEndedWorld ∧
      demoEndedWorld.state.gameOver = true) ∧
    ((demoEndedWorld.state.measureLevel = 2 ↔
        measureRound coins0 draws7 sample0 (startGame coins0 draws7 initWorld)
          [PlayerAction.measure] = some 1) ∧
      (∀ r, measureRound coins0 draws7 sample0 (startGame coins0 draws7 initWorld)
          [PlayerAction.measure] = some r → demoEndedWorld.state.measureLevel = r + 1) ∧
      (measureRound coins0 draws7 sample0 (startGame coins0 draws7 initWorld)
          [PlayerAction.measure] = none → demoEndedWorld.state.measureLevel = 3)) :=
  ⟨⟨by decide, by decide⟩,
    C3_measure_level coins0 draws7 sample0 initWorld [PlayerAction.measure] demoEndedWorld
      (by decide) (by decide)⟩

/-- C9: at the end of every game the Dealer's final score is at least 14
and at most 21. -/
theorem C9_dealer_score_range (coins : ℕ → Bool) (draws : ℕ → ℕ) (sample : ℕ → PMap RegBits)
    (w0 : World) (acts : List PlayerAction) (w2 : World)
    (hrun : run coins draws sample (startGame coins draws w0) acts = some w2)
    (hend : w2.state.gameOver = true) :
    DEALER_STANDS_THRESHOLD ≤ w2.state.playerScores.dealer ∧
    w2.state.playerScores.dealer ≤ 21 :=
  (run_ended_spec coins draws sample acts (startGame coins draws w0) w2
    (startGame_ActiveInv coins draws w0) hrun hend).1

/-- C9 witness: the demo play ends with the dealer on 17. -/
theorem C9_witness :
    (run coins0 draws7 sample0 (startGame coins0 draws7 initWorld) [PlayerAction.measure] =
        some demoEndedWorld ∧
      demoEndedWorld.state.gameOver = true) ∧
    (DEALER_STANDS_THRESHOLD ≤ demoEndedWorld.state.playerScores.dealer ∧
      demoEndedWorld.state.playerScores.dealer ≤ 21) :=
  ⟨⟨by decide, by decide⟩,
    C9_dealer_score_range coins0 draws7 sample0 initWorld [PlayerAction.measure] demoEndedWorld
      (by decide) (by decide)⟩

/-- C10: a Pass that does not complete round 2 keeps the initial cards,
all hands, all scores, the measure level and the circuit unchanged, and
the game stays active; it changes only the current player index — plus,
exactly when it completes round 1, the round number and a freshly tossed
turn order (consuming one coin). -/
theorem C10_pass_frame (coins : ℕ → Bool) (draws : ℕ → ℕ) (sample : ℕ → PMap RegBits)
    (w : World) (hgo : w.state.gameOver = false)
    (hlen : w.state.playerTurnOrder.length = 2)
    (hidx : w.state.currentPlayerIndex < 2)
    (hround : w.state.currentRound = 1 ∨ w.state.currentRound = 2)
    (hnc : ¬ (w.state.currentPlayerIndex = 1 ∧ w.state.currentRound = 2)) :
    ∃ w2, onActionButtonClicked coins draws sample w PlayerAction.pass = some w2 ∧
      w2.state.initialCards = w.state.initialCards ∧
      w2.state.playerHands = w.state.playerHands ∧
      w2.state.playerScores = w.state.playerScores ∧
      w2.state.measureLevel = w.state.measureLevel ∧
      w2.state.qc = w.state.qc ∧
      w2.state.gameOver = false ∧
      w2.drawIdx = w.drawIdx ∧ w2.sampleIdx = w.sampleIdx ∧
      (w.state.currentPlayerIndex = 0 →
        w2 = { w with state := { w.state with currentPlayerIndex := 1 } }) ∧
      (w.state.currentPlayerIndex = 1 →
        w.state.currentRound = 1 ∧
        w2.state.currentPlayerIndex = 0 ∧ w2.state.currentRound = 2 ∧
        w2.state.playerTurnOrder = determineTurnOrder coins w.coinIdx ∧
        w2.coinIdx = w.coinIdx + 1) := by
  have hidx2 : w.state.currentPlayerIndex < w.state.playerTurnOrder.length := by omega
  refine ⟨nextTurn coins draws sample w, onAction_pass coins draws sample w hidx2, ?_⟩
  obtain ⟨hn0, hn1, hn2⟩ := nextTurn_spec coins draws sample w hlen
  have hcases : w.state.currentPlayerIndex = 0 ∨ w.state.currentPlayerIndex = 1 := by omega
  rcases hcases with h0 | h1
  · rw [hn0 h0]
    refine ⟨rfl, rfl, rfl, rfl, rfl, hgo, rfl, rfl, fun _ => rfl, fun h1 => ?_⟩
    rw [h0] at h1
    exact absurd h1 (by simp)
  · have hr1 : w.state.currentRound = 1 := by
      rcases hround with h | h
      · exact h
      · exact absurd ⟨h1, h⟩ hnc
    rw [hn1 h1 hr1]
    exact ⟨rfl, rfl, rfl, rfl, rfl, hgo, rfl, rfl,
      fun h0 => by rw [h1] at h0; exact absurd h0 (by simp),
      fun _ => ⟨hr1, rfl, rfl, rfl, rfl⟩⟩

/-- C10 witness: the first Pass of the demo session (round 1, first
player). -/
theorem C10_witness :
    (demoStart.state.gameOver = false ∧
      demoStart.state.playerTurnOrder.length = 2 ∧
      demoStart.state.currentPlayerIndex < 2 ∧
      (demoStart.state.currentRound = 1 ∨ demoStart.state.currentRound = 2) ∧
      ¬ (demoStart.state.currentPlayerIndex = 1 ∧ demoStart.state.currentRound = 2)) ∧
    (∃ w2, onActionButtonClicked coins0 draws7 sample0 demoStart PlayerAction.pass = some w2 ∧
      w2.state.initialCards = demoStart.state.initialCards ∧
      w2.state.playerHands = demoStart.state.playerHands ∧
      w2.state.playerScores = demoStart.state.playerScores ∧
      w2.state.measureLevel = demoStart.state.measureLevel ∧
      w2.state.qc = demoStart.state.qc ∧
      w2.state.gameOver = false ∧
      w2.drawIdx = demoStart.drawIdx ∧ w2.sampleIdx = demoStart.sampleIdx ∧
      (demoStart.state.currentPlayerIndex = 0 →
        w2 = { demoStart with state := { demoStart.state with currentPlayerIndex := 1 } }) ∧
      (demoStart.state.currentPlayerIndex = 1 →
        demoStart.state.currentRound = 1 ∧
        w2.state.currentPlayerIndex = 0 ∧ w2.state.currentRound = 2 ∧
        w2.state.playerTurnOrder = determineTurnOrder coins0 demoStart.coinIdx ∧
        w2.coinIdx = demoStart.coinIdx + 1)) :=
  ⟨⟨by decide, by decide, by decide, by decide, by decide⟩,
    C10_pass_frame coins0 draws7 sample0 demoStart (by decide) (by decide) (by decide)
      (by decide) (by decide)⟩

/-- C8 (amended): the action handler has no guard on the ended state.
After the session has entered `Ended`, an action is not rejected as a
no-op: if the session ended by pass-through (the turn index ran past the
turn order), any further action fails with an out-of-range turn-order
access; otherwise a further Measure action re-runs the whole end-game
pipeline, appending a second set of measurement operations to the
circuit (the circuit grows by three operations).  Only the GUI's removal
of the action buttons keeps actions from being submitted after the end. -/
theorem C8_no_post_end_guard (coins : ℕ → Bool) (draws : ℕ → ℕ) (sample : ℕ → PMap RegBits)
    (w : World) (hgo : w.state.gameOver = true) :
    (w.state.playerTurnOrder.length ≤ w.state.currentPlayerIndex →
      ∀ a, onActionButtonClicked coins draws sample w a = none) ∧
    (w.state.currentPlayerIndex < w.state.playerTurnOrder.length →
      ∃ w2, onActionButtonClicked coins draws sample w PlayerAction.measure = some w2 ∧
        w2.state.gameOver = true ∧
        w2.state.qc.length = w.state.qc.length + 3 ∧
        w2.sampleIdx = w.sampleIdx + 1) := by
  constructor
  · intro hout a
    exact onAction_none coins draws sample w a hout
  · intro hin
    refine ⟨_, onAction_measure coins draws sample w hin, ?_, ?_, rfl⟩
    · exact (endGame_fields draws sample _).1
    · exact (endGame_fields draws sample _).2.2.2.2.2.2

/-- C8 witness: the ended demo session (Measure in round 1, index still
in range): a further Measure is processed and grows the circuit. -/
theorem C8_witness :
    demoEndedWorld.state.gameOver = true ∧
    ((demoEndedWorld.state.playerTurnOrder.length ≤ demoEndedWorld.state.currentPlayerIndex →
      ∀ a, onActionButtonClicked coins0 draws7 sample0 demoEndedWorld a = none) ∧
    (demoEndedWorld.state.currentPlayerIndex < demoEndedWorld.state.playerTurnOrder.length →
      ∃ w2, onActionButtonClicked coins0 draws7 sample0 demoEndedWorld PlayerAction.measure =
          some w2 ∧
        w2.state.gameOver = true ∧
        w2.state.qc.length = demoEndedWorld.state.qc.length + 3 ∧
        w2.sampleIdx = demoEndedWorld.sampleIdx + 1)) :=
  ⟨by decide, C8_no_post_end_guard coins0 draws7 sample0 demoEndedWorld (by decide)⟩

/-- C8, the claim as stated is false: in the reachable session that ended
by both players passing through both rounds, a further submitted Pass is
not rejected as a harmless no-op — the handler fails with an
out-of-range turn-order access (`IndexError`), modelled as `none`. -/
theorem C8_counterexample :
    (run coins0 draws7 sample0 demoStart
        [PlayerAction.pass, PlayerAction.pass, PlayerAction.pass, PlayerAction.pass]).map
      (fun w => (w.state.gameOver,
        onActionButtonClicked coins0 draws7 sample0 w PlayerAction.pass)) =
    some (true, none) := by decide

/-! ### The amplitude model: Re-Shuffle and the entanglement link -/

set_option maxHeartbeats 1600000 in
/-- After the entangling `cx` gates, one Re-Shuffle (`h` on all three of
the player's slot qubits) makes Player 1's marginal weight of the slot
independent of the outcome: the reduced state of the slot is diagonal
(fully dephased by the entanglement), and a Hadamard of a diagonal state
has uniform outcome weights. -/
theorem reshuffleP1_uniform {R : Type} [CommRing R] (c0 s0 c1 s1 c2 s2 : R) (x : B3) :
    wP1 (reshuffleP1 (slotCircuit c0 s0 c1 s1 c2 s2)) x =
      8 * ((c0 ^ 2 + s0 ^ 2) * ((c1 ^ 2 + s1 ^ 2) * (c2 ^ 2 + s2 ^ 2))) := by
  rcases x with ⟨a, b, c⟩
  cases a <;> cases b <;> cases c <;>
    (simp [wP1, reshuffleP1, slotCircuit, entangleSlot, prepSlot, hP1, ryP1, cxP1P2, init0,
      getB, setB, Fintype.sum_prod_type, Fintype.sum_bool]
     ring)

set_option maxHeartbeats 1600000 in
/-- The same for a Re-Shuffle of Player 2's side of the slot. -/
theorem reshuffleP2_uniform {R : Type} [CommRing R] (c0 s0 c1 s1 c2 s2 : R) (y : B3) :
    wP2 (reshuffleP2 (slotCircuit c0 s0 c1 s1 c2 s2)) y =
      8 * ((c0 ^ 2 + s0 ^ 2) * ((c1 ^ 2 + s1 ^ 2) * (c2 ^ 2 + s2 ^ 2))) := by
  rcases y with ⟨a, b, c⟩
  cases a <;> cases b <;> cases c <;>
    (simp [wP2, reshuffleP2, slotCircuit, entangleSlot, prepSlot, hP2, hP1, ryP1, cxP1P2, init0,
      getB, setB, Fintype.sum_prod_type, Fintype.sum_bool]
     ring)

/-- C1 (amended): a single Reset Slot (Re-Shuffle) applied to a
player-owned slot in its freshly prepared, entangled state replaces that
slot's marginal distribution with the uniform even-split over the 8
values — for either player's side, and for every preparation rotation.
(The repetition clause of the claim is dropped: the operation is a
self-inverse Hadamard, not idempotent; see the counterexample.) -/
theorem C1_single_reshuffle_even_split {R : Type} [CommRing R] (c0 s0 c1 s1 c2 s2 : R)
    (x x2 y y2 : B3) :
    wP1 (reshuffleP1 (slotCircuit c0 s0 c1 s1 c2 s2)) x =
      wP1 (reshuffleP1 (slotCircuit c0 s0 c1 s1 c2 s2)) x2 ∧
    wP2 (reshuffleP2 (slotCircuit c0 s0 c1 s1 c2 s2)) y =
      wP2 (reshuffleP2 (slotCircuit c0 s0 c1 s1 c2 s2)) y2 :=
  ⟨(reshuffleP1_uniform c0 s0 c1 s1 c2 s2 x).trans
      (reshuffleP1_uniform c0 s0 c1 s1 c2 s2 x2).symm,
    (reshuffleP2_uniform c0 s0 c1 s1 c2 s2 y).trans
      (reshuffleP2_uniform c0 s0 c1 s1 c2 s2 y2).symm⟩

set_option maxHeartbeats 4000000 in
/-- C1, the claim as stated is false: resetting the same slot twice does
not yield the uniform even-split again.  With rotation parameters
`(c, s) = (1, 0), (1, 0), (3, 4)` (the third qubit's angle has
`cos (θ/2) = 3/5`, `sin (θ/2) = 4/5`, amplitudes scaled by 5), the
doubly re-shuffled slot gives outcome `000` and outcome `001` different
weights, so the second Reset has restored the original skew rather than
left the uniform even-split in place. -/
theorem C1_counterexample :
    wP1 (reshuffleP1 (reshuffleP1 ((slotCircuit 1 0 1 0 3 4 : QState ℤ)))) (false, false, false) ≠
      wP1 (reshuffleP1 (reshuffleP1 ((slotCircuit 1 0 1 0 3 4 : QState ℤ)))) (false, false, true) := by
  decide

set_option maxHeartbeats 1600000 in
/-- C2 (amended): with no Re-Shuffle between entanglement and
measurement, every joint outcome of nonzero amplitude has Player 2's
slot bits equal to the bit reversal of Player 1's slot bits, hence
Player 2's slot card value is exactly the bit-reversal-derived value of
Player 1's sample — a deterministic, perfect correlation, for every
preparation rotation.  (The claim's "regardless of any Reset Slot
actions" is dropped: a Re-Shuffle breaks the correlation; see the
counterexample.) -/
theorem C2_bit_reversal_correlation {R : Type} [CommRing R] (c0 s0 c1 s1 c2 s2 : R)
    (x y : B3) (h : slotCircuit c0 s0 c1 s1 c2 s2 x y ≠ 0) :
    y = revB3 x ∧ slotCardValue y = slotCardValue (revB3 x) := by
  rcases x with ⟨a, b, c⟩
  rcases y with ⟨d, e, f⟩
  cases a <;> cases b <;> cases c <;> cases d <;> cases e <;> cases f <;>
    first
      | exact ⟨rfl, rfl⟩
      | (exfalso
         apply h
         simp [slotCircuit, entangleSlot, prepSlot, hP1, ryP1, cxP1P2, init0, getB, setB])

/-- C2 witness: over `ℤ` with all rotations trivial, the outcome
`x = (0,0,0)`, `y = (0,0,0)` has nonzero amplitude and satisfies the
bit-reversal link. -/
theorem C2_witness :
    (slotCircuit 1 0 1 0 1 0 : QState ℤ) (false, false, false) (false, false, false) ≠ 0 ∧
    ((false, false, false) = revB3 (false, false, false) ∧
      slotCardValue (false, false, false) = slotCardValue (revB3 (false, false, false))) :=
  ⟨by decide, @C2_bit_reversal_correlation ℤ _ 1 0 1 0 1 0 (false, false, false)
    (false, false, false) (by decide)⟩

set_option maxHeartbeats 1600000 in
/-- C2, the claim as stated is false: after Player 2 Re-Shuffles the
slot (Hadamards on their three qubits, applied after the entangling
gates), the joint outcome with Player 1's bits `000` and Player 2's bits
`001` has nonzero amplitude, yet `001` is not the bit reversal of `000`
and the two card values differ (2 versus 1): the perfect correlation
does not survive a Reset Slot action. -/
theorem C2_counterexample :
    reshuffleP2 ((slotCircuit 1 0 1 0 1 0 : QState ℤ)) (false, false, false) (false, false, true) ≠ 0 ∧
    ¬ ((false, false, true) = revB3 (false, false, false)) ∧
    slotCardValue (false, false, true) ≠ slotCardValue (revB3 (false, false, false)) := by
  refine ⟨by decide, by decide, by decide⟩
